import Mathlib

/-!
Shallow embedding of the Y-ary array-generation module
(`src/src/algorithms/arrayGens.ts`) and proofs about it.

Modelling conventions:
* JS numbers used as bank values and sequence elements are modelled as `Int`
  (the claims only concern integer data).
* The `bankNums` object is an association list `Bank` from value to limit;
  `Object.keys(bankNums).map(Number)` is `bankKeys`.
* `Math.random()` draws are made explicit: each generator takes an oracle
  producing the integer results of `Math.floor(Math.random() * n)`.  An oracle
  value `v` stands for the draw `v % n`, which ranges over exactly the values
  `Math.floor(Math.random() * n)` can take for `n > 0`.  Quantifying over all
  oracles covers every possible sequence of random draws.
* JS `undefined` arising from out-of-range indexing is modelled with `Option`:
  in `arrayWithBankNums`, `availableNumbers[randomIndex]` is `undefined` when
  the bank is empty, and that value flows onward (see `tryDraws`), so the
  flat array elements are `JSNum := Option Int`, `none` standing for the JS
  value `undefined`.
-/

namespace YAry

/-- The `bankNums` object: association list from value to its maximum
occurrence count.  JS object keys are distinct; proofs that need
distinctness state it explicitly. -/
abbrev Bank := List (Int × Nat)

/-- JS `Object.keys(bankNums).map(Number)`. -/
def bankKeys (bank : Bank) : List Int := bank.map Prod.fst

/-- JS property read `bankNums[k]`: `none` models `undefined` (key absent). -/
def bankLimit (bank : Bank) (k : Int) : Option Nat := List.lookup k bank

/-- Result of either generator: a 1-D array or a 2-D matrix, mirroring the
TS return type `number[] | number[][]`. -/
inductive GenResult (α : Type) where
  | oneD : List α → GenResult α
  | twoD : List (List α) → GenResult α
deriving DecidableEq

/-- All element values contained in a generator result (flattened). -/
def genValues {α : Type} : GenResult α → List α
  | .oneD l => l
  | .twoD m => m.flatten

/-- The rows of a generator result: a 1-D result is a single row. -/
def rowsOf {α : Type} : GenResult α → List (List α)
  | .oneD l => [l]
  | .twoD m => m

/-- JS `totalElements = is2D ? dims[0] * dims[1] : dims[0]` (both generators).
For `dims = []` the JS value is `undefined` and every loop/recursion guard
comparing against it fails, so the generators produce `[]`; `getD 0` yields
the same results through a total count of `0`. -/
def totalOf (dims : List Nat) : Nat :=
  if dims.length = 2 then dims.getD 0 0 * dims.getD 1 0 else dims.getD 0 0

/-- JS `rowSize = is2D ? dims[1] : dims[0]` (ordered generator). -/
def rowSizeOf (dims : List Nat) : Nat :=
  if dims.length = 2 then dims.getD 1 0 else dims.getD 0 0

/-- Bump a usage-count map at one key: JS
`usageCount[n] = (usageCount[n] || 0) + 1` (and the spread-copy version in the
ordered solver).  Usage maps are modelled as total functions with default 0,
matching the `|| 0` reads. -/
def bump {α : Type} [DecidableEq α] (usage : α → Nat) (v : α) : α → Nat :=
  fun k => if k = v then usage k + 1 else usage k

/-- The row-major reshaping loop shared by both generators: for each of
`rows` row indices, push `flat[row*cols + col]` for every `col` with
`row*cols + col < flat.length`. -/
def reshape {α : Type} (flat : List α) (rows cols : Nat) : List (List α) :=
  (List.range rows).map (fun r => (List.range cols).filterMap (fun c => flat[r * cols + c]?))

/-! ### Bit-index codec (`decompressRow`, lines 215-223) -/

/-- Model of `decompressRow`: start from `new Array(size).fill(false)` and,
for each index in order, set position `index - 1` to `true` when
`1 <= index && index <= size`; out-of-range indices leave the array
untouched.  Indices are JS numbers supplied by callers; the claims concern
integer indices, modelled as `Int`. -/
def decompressRow (compressedRow : List Int) (size : Nat) : List Bool :=
  compressedRow.foldl
    (fun result index =>
      if 1 ≤ index ∧ index ≤ (size : Int) then result.set (index - 1).toNat true else result)
    (List.replicate size false)

/-- Modelled from the claim's words (C7): the list of 1-based positions at
which a boolean row holds `true`. -/
def truePositions (b : List Bool) : List Int :=
  (List.range b.length).filterMap (fun i => if b.getD i false then some ((i : Int) + 1) else none)

/-! #### Codec lemmas -/

theorem decompress_fold_length (l : List Int) (acc : List Bool) :
    (l.foldl
      (fun result index =>
        if 1 ≤ index ∧ index ≤ (acc.length : Int) then result.set (index - 1).toNat true
        else result) acc).length = acc.length := by
  induction l generalizing acc with
  | nil => rfl
  | cons i t ih =>
    simp only [List.foldl_cons]
    by_cases h : 1 ≤ i ∧ i ≤ (acc.length : Int)
    · have hlen : (acc.set (i - 1).toNat true).length = acc.length := by simp
      rw [if_pos h]
      have := ih (acc.set (i - 1).toNat true)
      simp only [hlen] at this
      simpa [hlen] using this
    · rw [if_neg h]
      exact ih acc

theorem decompress_fold_getD (l : List Int) (acc : List Bool) (j : Nat) (hj : j < acc.length) :
    (l.foldl
      (fun result index =>
        if 1 ≤ index ∧ index ≤ (acc.length : Int) then result.set (index - 1).toNat true
        else result) acc).getD j false
      = (decide (((j : Int) + 1) ∈ l) || acc.getD j false) := by
  induction l generalizing acc with
  | nil => simp
  | cons i t ih =>
    simp only [List.foldl_cons, List.mem_cons]
    by_cases h : 1 ≤ i ∧ i ≤ (acc.length : Int)
    · rw [if_pos h]
      have hlen : (acc.set (i - 1).toNat true).length = acc.length := by simp
      have := ih (acc.set (i - 1).toNat true) (by simpa [hlen] using hj)
      rw [hlen] at this
      rw [this]
      by_cases hij : i = (j : Int) + 1
      · have hnat : (i - 1).toNat = j := by omega
        rw [hnat]
        have hset : (acc.set j true).getD j false = true := by
          simp [List.getD, List.getElem?_set, hj]
        rw [hset]
        have hdec : decide ((j : Int) + 1 = i ∨ ((j : Int) + 1) ∈ t) = true := by
          simp [hij]
        rw [hdec]
        simp
      · have hset : (acc.set (i - 1).toNat true).getD j false = acc.getD j false := by
          have hne : i.toNat - 1 ≠ j := by omega
          have hne' : (i - 1).toNat ≠ j := by omega
          simp [List.getD, List.getElem?_set, hne, hne']
        rw [hset]
        have hni : ¬ ((j : Int) + 1 = i) := fun hc => hij hc.symm
        simp [hni]
    · rw [if_neg h]
      rw [ih acc hj]
      have : ¬ ((j : Int) + 1 = i) := by
        intro hc
        apply h
        constructor <;> omega
      simp [this]

theorem decompressRow_length (l : List Int) (size : Nat) :
    (decompressRow l size).length = size := by
  have := decompress_fold_length l (List.replicate size false)
  simpa [decompressRow] using this

theorem decompressRow_getD (l : List Int) (size : Nat) (j : Nat) (hj : j < size) :
    (decompressRow l size).getD j false = decide (((j : Int) + 1) ∈ l) := by
  have := decompress_fold_getD l (List.replicate size false) j (by simpa using hj)
  simp only [decompressRow]
  simp only [List.length_replicate] at this
  rw [this]
  simp [List.getD, List.getElem?_replicate, hj]

theorem getD_eq_of_lt {α : Type} (l : List α) (d : α) (j : Nat) (h : j < l.length) :
    l.getD j d = l[j] := List.getD_eq_getElem l d h

/-- Claim C7 key fact: membership in `truePositions`. -/
theorem mem_truePositions (b : List Bool) (j : Nat) :
    (((j : Int) + 1) ∈ truePositions b) ↔ (j < b.length ∧ b.getD j false = true) := by
  constructor
  · intro h
    simp only [truePositions, List.mem_filterMap, List.mem_range] at h
    obtain ⟨i, hi, hif⟩ := h
    by_cases hb : b.getD i false
    · rw [if_pos hb] at hif
      have : i = j := by
        have := Option.some.inj hif
        omega
      subst this
      exact ⟨hi, hb⟩
    · rw [if_neg hb] at hif
      exact absurd hif (by simp)
  · rintro ⟨hj, hb⟩
    simp only [truePositions, List.mem_filterMap, List.mem_range]
    exact ⟨j, hj, by rw [if_pos hb]⟩

/-- The C7 round trip: decompressing the list of 1-based true positions of a
boolean row reproduces the row. -/
theorem decompress_truePositions (b : List Bool) :
    decompressRow (truePositions b) b.length = b := by
  apply List.ext_getElem (by simp [decompressRow_length])
  intro j h₁ h₂
  have hlen : j < b.length := h₂
  have hd := decompressRow_getD (truePositions b) b.length j hlen
  rw [getD_eq_of_lt _ _ _ h₁] at hd
  have hiff : (((j : Int) + 1) ∈ truePositions b) ↔ b[j] = true := by
    rw [mem_truePositions]
    constructor
    · rintro ⟨-, hgd⟩
      rw [getD_eq_of_lt _ _ _ hlen] at hgd
      exact hgd
    · intro hb
      exact ⟨hlen, by rw [getD_eq_of_lt _ _ _ hlen]; exact hb⟩
  rw [hd]
  cases hbv : b[j] with
  | true => simp [hiff.mpr hbv]
  | false =>
    have hnm : ¬ (((j : Int) + 1) ∈ truePositions b) := by
      intro hm
      have hc := hiff.mp hm
      rw [hbv] at hc
      simp at hc
    simp [hnm]

/-- CLAIM C7: for every boolean row `b` of size `n`, taking `idx` to be the
list of 1-based positions at which `b` is true, `decompressRow(idx, n)`
equals `b`. -/
theorem claim7_decompressRow_roundTrip (b : List Bool) :
    decompressRow (truePositions b) b.length = b :=
  decompress_truePositions b

theorem decompress_fold_filter (l : List Int) (acc : List Bool) :
    (l.foldl
      (fun result index =>
        if 1 ≤ index ∧ index ≤ (acc.length : Int) then result.set (index - 1).toNat true
        else result) acc)
    = ((l.filter (fun i => decide (1 ≤ i) && decide (i ≤ (acc.length : Int)))).foldl
      (fun result index =>
        if 1 ≤ index ∧ index ≤ (acc.length : Int) then result.set (index - 1).toNat true
        else result) acc) := by
  induction l generalizing acc with
  | nil => rfl
  | cons i t ih =>
    by_cases h : 1 ≤ i ∧ i ≤ (acc.length : Int)
    · have hb : (decide (1 ≤ i) && decide (i ≤ (acc.length : Int))) = true := by
        simp [h.1, h.2]
      have hfil : List.filter (fun k => decide (1 ≤ k) && decide (k ≤ (acc.length : Int))) (i :: t)
          = i :: List.filter (fun k => decide (1 ≤ k) && decide (k ≤ (acc.length : Int))) t := by
        simp only [List.filter_cons, hb, if_true]
      rw [hfil]
      simp only [List.foldl_cons, if_pos h]
      have hlen : (acc.set (i - 1).toNat true).length = acc.length := by simp
      have := ih (acc.set (i - 1).toNat true)
      rw [hlen] at this
      exact this
    · have hb : (decide (1 ≤ i) && decide (i ≤ (acc.length : Int))) = false := by
        rcases not_and_or.mp h with h1 | h1 <;> simp [h1]
      have hfil : List.filter (fun k => decide (1 ≤ k) && decide (k ≤ (acc.length : Int))) (i :: t)
          = List.filter (fun k => decide (1 ≤ k) && decide (k ≤ (acc.length : Int))) t := by
        simp only [List.filter_cons, hb, Bool.false_eq_true, if_false]
      rw [hfil]
      simp only [List.foldl_cons, if_neg h]
      exact ih acc

/-- CLAIM C9: indices outside `[1, size]` are silently ignored by
`decompressRow`: deleting them does not change the output, and the output is
a boolean row of exactly the requested size in every case. -/
theorem claim9_decompressRow_ignores_outOfRange (l : List Int) (size : Nat) :
    (decompressRow l size).length = size ∧
      decompressRow l size
        = decompressRow (l.filter (fun i => decide (1 ≤ i) && decide (i ≤ (size : Int)))) size := by
  refine ⟨decompressRow_length l size, ?_⟩
  have := decompress_fold_filter l (List.replicate size false)
  simpa [decompressRow] using this

/-- CLAIM C10: `decompressRow` depends only on the set of supplied indices:
two index lists with the same members (any order, any duplication) produce
equal boolean rows. -/
theorem claim10_decompressRow_setExtensional (l₁ l₂ : List Int) (size : Nat)
    (h₁ : ∀ x ∈ l₁, x ∈ l₂) (h₂ : ∀ x ∈ l₂, x ∈ l₁) :
    decompressRow l₁ size = decompressRow l₂ size := by
  apply List.ext_getElem (by simp [decompressRow_length])
  intro j hj₁ hj₂
  have hs : j < size := by simpa [decompressRow_length] using hj₁
  have e₁ := decompressRow_getD l₁ size j hs
  have e₂ := decompressRow_getD l₂ size j hs
  rw [getD_eq_of_lt _ _ _ hj₁] at e₁
  rw [getD_eq_of_lt _ _ _ hj₂] at e₂
  rw [e₁, e₂]
  by_cases hm : ((j : Int) + 1) ∈ l₁
  · simp [hm, h₁ _ hm]
  · have : ¬ (((j : Int) + 1) ∈ l₂) := fun hc => hm (h₂ _ hc)
    simp [hm, this]

/-- Witness for C10 at a concrete input: `[2, 1, 1]` and `[1, 2]` contain the
same indices as sets, so the decompressed rows coincide. -/
theorem claim10_witness :
    decompressRow [2, 1, 1] 3 = decompressRow [1, 2] 3 :=
  claim10_decompressRow_setExtensional [2, 1, 1] [1, 2] 3
    (by decide) (by decide)

/-! ### Stochastic generator (`arrayWithBankNums`, lines 22-82) -/

/-- Elements of the flat array built by `arrayWithBankNums`: `some k` is the
number `k`; `none` is the JS value `undefined`, which the code pushes when the
bank is empty (see `tryDraws`). -/
abbrev JSNum := Option Int

/-- Model of the optional `extraRules` callback of `arrayWithBankNums`.  It
receives the candidate (which is `undefined` when the bank is empty, hence
`JSNum`) and the flat array built so far. -/
abbrev StochRule := JSNum → List JSNum → Bool

/-- One run of the inner `while (candidateNum === null && attempts < maxAttempts)`
loop of `arrayWithBankNums`, with `fuel` remaining attempts and `t` the
0-based count of attempts already made.  `h t` is the random draw of attempt
`t`: `randomIndex = Math.floor(Math.random() * availableNumbers.length)`,
modelled as `h t % keys.length` (for an empty bank JS computes index 0 and
`availableNumbers[0]` is `undefined`; here `[][_]?` is `none` likewise).

Faithful JS details: `selectedNum` may be `undefined` (`none`); the guard
`currentUsage >= maxUsage` is false when `maxUsage` is `undefined`
(NaN comparison); assigning `candidateNum = selectedNum` ends the loop even
when `selectedNum` is `undefined`, because `undefined === null` is false. -/
def tryDraws (bank : Bank) (rules : Option StochRule) (flat : List JSNum)
    (usage : JSNum → Nat) (h : Nat → Nat) : Nat → Nat → Option JSNum
  | 0, _ => none
  | fuel + 1, t =>
    let keys := bankKeys bank
    let selectedNum : JSNum := keys[h t % keys.length]?
    let exhausted : Bool :=
      match selectedNum.bind (bankLimit bank) with
      | some maxUsage => decide (maxUsage ≤ usage selectedNum)
      | none => false
    if exhausted then tryDraws bank rules flat usage h fuel (t + 1)
    else if (match rules with | some r => r selectedNum flat | none => true) then
      some selectedNum
    else tryDraws bank rules flat usage h fuel (t + 1)

/-- The outer `for (let i = 0; i < totalElements; i++)` loop of
`arrayWithBankNums`: at each position run the candidate search with a cap of
1000 attempts; on success push the candidate and bump its usage count, on
failure warn and `break`.  `g i` is the random-draw oracle used at position
`i` (each position runs the while loop once). -/
def buildFlat (bank : Bank) (rules : Option StochRule) (g : Nat → Nat → Nat) :
    Nat → List JSNum → (JSNum → Nat) → List JSNum
  | 0, flat, _ => flat
  | n + 1, flat, usage =>
    match tryDraws bank rules flat usage (g flat.length) 1000 0 with
    | some v => buildFlat bank rules g n (flat ++ [v]) (bump usage v)
    | none => flat

/-- The flat array produced by one call of `arrayWithBankNums`. -/
def stochFlat (bank : Bank) (dims : List Nat) (rules : Option StochRule)
    (g : Nat → Nat → Nat) : List JSNum :=
  buildFlat bank rules g (totalOf dims) [] (fun _ => 0)

/-- Model of `arrayWithBankNums`: build the flat array, then reshape it
row-major into a matrix when two dimensions were requested. -/
def arrayWithBankNums (bank : Bank) (dims : List Nat) (rules : Option StochRule)
    (g : Nat → Nat → Nat) : GenResult JSNum :=
  let flat := stochFlat bank dims rules g
  if dims.length = 2 then .twoD (reshape flat (dims.getD 0 0) (dims.getD 1 0))
  else .oneD flat

/-- Test whether a generated element is a key of the bank (an `undefined`
element is not). -/
def isBankKey (bank : Bank) : JSNum → Bool
  | some k => (bankKeys bank).contains k
  | none => false

/-! #### Stochastic generator lemmas -/

theorem buildFlat_length_le (bank : Bank) (rules : Option StochRule) (g : Nat → Nat → Nat)
    (n : Nat) (flat : List JSNum) (usage : JSNum → Nat) :
    (buildFlat bank rules g n flat usage).length ≤ flat.length + n := by
  induction n generalizing flat usage with
  | zero => simp [buildFlat]
  | succ n ih =>
    rw [buildFlat]
    cases htd : tryDraws bank rules flat usage (g flat.length) 1000 0 with
    | none =>
      simp only [htd]
      omega
    | some v =>
      simp only [htd]
      have := ih (flat ++ [v]) (bump usage v)
      simp only [List.length_append, List.length_singleton] at this
      omega

theorem range_filterMap_getElem {α : Type} (l : List α) (n : Nat) :
    (List.range n).filterMap (fun c => l[c]?) = l.take n := by
  induction n with
  | zero => simp
  | succ n ih =>
    rw [List.range_succ, List.filterMap_append, ih, List.take_succ]
    cases h : l[n]? <;> simp [List.filterMap_cons, h]

theorem reshape_eq_map_slices {α : Type} (flat : List α) (rows cols : Nat) :
    reshape flat rows cols
      = (List.range rows).map (fun r => (flat.drop (r * cols)).take cols) := by
  unfold reshape
  apply List.map_congr_left
  intro r _
  have h1 : (List.range cols).filterMap (fun c => flat[r * cols + c]?)
      = (List.range cols).filterMap (fun c => (flat.drop (r * cols))[c]?) := by
    apply List.filterMap_congr
    intro c _
    rw [List.getElem?_drop]
  rw [h1, range_filterMap_getElem]

theorem reshape_length {α : Type} (flat : List α) (rows cols : Nat) :
    (reshape flat rows cols).length = rows := by
  simp [reshape]

theorem reshape_flatten {α : Type} (flat : List α) (rows cols : Nat) :
    (reshape flat rows cols).flatten = flat.take (rows * cols) := by
  rw [reshape_eq_map_slices]
  induction rows with
  | zero => simp
  | succ n ih =>
    rw [List.range_succ, List.map_append, List.flatten_append, ih]
    have : (n + 1) * cols = n * cols + cols := by ring
    rw [this, List.take_add]
    simp

theorem reshape_getD {α : Type} (flat : List α) (rows cols r : Nat) (hr : r < rows) :
    (reshape flat rows cols).getD r [] = (flat.drop (r * cols)).take cols := by
  rw [reshape_eq_map_slices]
  rw [List.getD_eq_getElem _ _ (by simpa using hr)]
  simp

/-- CLAIM C5: for a 2-D request, `arrayWithBankNums` reshapes its (possibly
partial) flat sequence row-major with truncation: the matrix has exactly
`rows` rows, row `r` is the slice of the flat sequence starting at `r*cols`,
flattening the matrix recovers the whole flat sequence (nothing is dropped),
and the final row's length is `min cols (flat.length - (rows-1)*cols)`, i.e.
shorter than `cols` whenever the flat sequence stopped early. -/
theorem claim5_partial_reshape (bank : Bank) (rules : Option StochRule)
    (g : Nat → Nat → Nat) (rows cols : Nat) :
    arrayWithBankNums bank [rows, cols] rules g
        = .twoD (reshape (stochFlat bank [rows, cols] rules g) rows cols)
      ∧ reshape (stochFlat bank [rows, cols] rules g) rows cols
          = (List.range rows).map
              (fun r => ((stochFlat bank [rows, cols] rules g).drop (r * cols)).take cols)
      ∧ (reshape (stochFlat bank [rows, cols] rules g) rows cols).flatten
          = stochFlat bank [rows, cols] rules g
      ∧ ((reshape (stochFlat bank [rows, cols] rules g) rows cols).getD (rows - 1) []).length
          = min cols ((stochFlat bank [rows, cols] rules g).length - (rows - 1) * cols) := by
  have hlen : (stochFlat bank [rows, cols] rules g).length ≤ rows * cols := by
    have := buildFlat_length_le bank rules g (totalOf [rows, cols]) [] (fun _ => 0)
    simpa [stochFlat, totalOf] using this
  refine ⟨by simp [arrayWithBankNums], reshape_eq_map_slices _ _ _, ?_, ?_⟩
  · rw [reshape_flatten]
    exact List.take_of_length_le hlen
  · cases rows with
    | zero =>
      have hf : stochFlat bank [0, cols] rules g = [] := by
        simp [stochFlat, totalOf, buildFlat]
      simp [hf, reshape]
    | succ n =>
      rw [reshape_getD _ _ _ _ (by omega)]
      simp [List.length_take, List.length_drop]

/-- CLAIM C4 (code evaluation at the failing input): with an empty bank, no
extra rules and requested length 1, `arrayWithBankNums` does NOT return an
empty sequence.  JS indexes the empty key array, obtaining `undefined`; the
usage guard `0 >= undefined` is false, the candidate is accepted, the loop
exits because `undefined === null` is false, and `undefined` is pushed: the
result is `[undefined]`, not `[]`. -/
theorem claim4_emptyBank_eval :
    arrayWithBankNums [] [1] none (fun _ _ => 0) = .oneD [none]
      ∧ genValues (arrayWithBankNums [] [1] none (fun _ _ => 0)) ≠ [] := by
  decide

/-- CLAIM C1 (code evaluation at the failing input): with an empty bank and
requested length 2, the output sequence is `[undefined, undefined]`; its
elements are not bank keys, refuting the invariant as stated for
`arrayWithBankNums` on this input. -/
theorem claim1_emptyBank_eval :
    genValues (arrayWithBankNums [] [2] none (fun _ _ => 0)) = [none, none]
      ∧ (genValues (arrayWithBankNums [] [2] none (fun _ _ => 0))).all (isBankKey [])
          = false := by
  decide

/-! ### Ordered backtracking solver (`orderedArrayWithBankNums`, lines 84-197) -/

/-- Model of the optional `extraRules` callback of `orderedArrayWithBankNums`:
`(candidateNum, currentArray, rowSize) => boolean`.  The ordered solver only
ever offers real bank keys as candidates, so the candidate is `Int`. -/
abbrev OrdRule := Int → List Int → Nat → Bool

/-- JS `Object.keys(bankNums).map(Number).sort((a, b) => a - b)`. -/
def sortedNumbers (bank : Bank) : List Int :=
  List.insertionSort (· ≤ ·) (bankKeys bank)

/-- The usage half of the candidate filter in `solve`:
`(usageCount[num] || 0) < bankNums[num]`.  A missing limit is JS `undefined`
and the NaN comparison is false. -/
def underLimit (bank : Bank) (usage : Int → Nat) (num : Int) : Bool :=
  match bankLimit bank num with
  | some m => decide (usage num < m)
  | none => false

/-- The ordering half of the candidate filter in `solve`: `num > minValue`,
where `minValue` is `-Infinity` at the start of a row
(`flatArray.length % rowSize === 0`) and the previous element otherwise.
When `flatArray` is empty its length is 0, so `posInRow = 0` and the
`getLast?` branch is unreachable; `false` there mirrors the JS NaN
comparison against `undefined`. -/
def gtMin (flat : List Int) (rowSize : Nat) (num : Int) : Bool :=
  if flat.length % rowSize = 0 then true
  else
    match flat.getLast? with
    | some v => decide (v < num)
    | none => false

/-- The `extraRules` guard inside the candidate loop of `solve`
(`extraRules && !extraRules(num, flatArray, rowSize)` skips the candidate). -/
def passR (rules : Option OrdRule) (num : Int) (flat : List Int) (rowSize : Nat) : Bool :=
  match rules with
  | some r => r num flat rowSize
  | none => true

/-- The candidate list computed by `solve`:
`sortedNumbers.filter(num => usage < bankNums[num] && num > minValue)`. -/
def candidatesIn (bank : Bank) (rowSize : Nat) (flat : List Int) (usage : Int → Nat) :
    List Int :=
  (sortedNumbers bank).filter (fun num => underLimit bank usage num && gtMin flat rowSize num)

/-- The destructuring swap `[array[i], array[j]] = [array[j], array[i]]` in
`shuffleArray`: both reads happen before either write. -/
def fySwap (l : List Int) (i j : Nat) : List Int :=
  (l.set i (l.getD j 0)).set j (l.getD i 0)

/-- The Fisher-Yates loop of `shuffleArray`, counting `i` down to 1.  At step
`i` the draw is `j = Math.floor(Math.random() * (i + 1))`, modelled as
`f i % (i + 1)`, which ranges over exactly `0..i`. -/
def fyAux (f : Nat → Nat) : Nat → List Int → List Int
  | 0, l => l
  | i + 1, l => fyAux f i (fySwap l (i + 1) (f (i + 1) % (i + 2)))

/-- Model of `shuffleArray` (Fisher-Yates): `f` supplies the random draws. -/
def shuffleArray (f : Nat → Nat) (l : List Int) : List Int :=
  fyAux f (l.length - 1) l

/-- The `for (const num of shuffled)` loop body of `solve`: skip candidates
rejected by `extraRules`, recurse on the rest (`step num`), return the first
success, `none` when the loop falls through. -/
def tryList (step : Int → Option (List Int)) (pass : Int → Bool) :
    List Int → Option (List Int)
  | [] => none
  | num :: rest =>
    if pass num then
      match step num with
      | some r => some r
      | none => tryList step pass rest
    else tryList step pass rest

/-- The recursive backtracking function `solve(flatArray, usageCount)`.
The JS recursion terminates because every call appends one element and
returns at `flatArray.length === totalElements`; `fuel` makes that measure
explicit (callers pass `fuel = total - flatArray.length`, so the fuel-0 base
case coincides with the JS base case).  `o flat` is the shuffle oracle used
at the node with prefix `flat` — within one attempt each prefix is visited
at most once, so keying draws by the prefix captures every execution. -/
def solveAux (bank : Bank) (rowSize total : Nat) (rules : Option OrdRule)
    (o : List Int → Nat → Nat) : Nat → List Int → (Int → Nat) → Option (List Int)
  | 0, flat, _ => if flat.length = total then some flat else none
  | fuel + 1, flat, usage =>
    if flat.length = total then some flat
    else
      tryList
        (fun num => solveAux bank rowSize total rules o fuel (flat ++ [num]) (bump usage num))
        (fun num => passR rules num flat rowSize)
        (shuffleArray (o flat) (candidatesIn bank rowSize flat usage))

/-- One full solve attempt: `solve([], {})`. -/
def solveStart (bank : Bank) (dims : List Nat) (rules : Option OrdRule)
    (o : List Int → Nat → Nat) : Option (List Int) :=
  solveAux bank (rowSizeOf dims) (totalOf dims) rules o (totalOf dims) [] (fun _ => 0)

/-- The restart loop
`for (let attempt = 0; attempt < 50 && result === null; attempt++)`:
`n` attempts remain, `a` is the index of the next attempt, and `sh a` is the
shuffle oracle of attempt `a`. -/
def attemptLoop (bank : Bank) (dims : List Nat) (rules : Option OrdRule)
    (sh : Nat → List Int → Nat → Nat) : Nat → Nat → Option (List Int)
  | 0, _ => none
  | n + 1, a =>
    match solveStart bank dims rules (sh a) with
    | some r => some r
    | none => attemptLoop bank dims rules sh n (a + 1)

/-- The 2-D shaping step of `orderedArrayWithBankNums`: same row-major fold,
but rows are only pushed when non-empty (`if (rowArray.length > 0)`). -/
def reshapeOrd (flat : List Int) (rows cols : Nat) : List (List Int) :=
  (reshape flat rows cols).filter (fun row => decide (0 < row.length))

/-- Model of `orderedArrayWithBankNums`: run up to 50 solve attempts, fall
back to `[]` (with a console warning) when all fail, and reshape into a
matrix when a 2-D request produced a non-empty result.  For a 2-D request
with an empty result JS returns the flat empty array, modelled as
`.oneD []`. -/
def orderedArrayWithBankNums (bank : Bank) (dims : List Nat) (rules : Option OrdRule)
    (sh : Nat → List Int → Nat → Nat) : GenResult Int :=
  let result := (attemptLoop bank dims rules sh 50 0).getD []
  if dims.length = 2 ∧ result.length ≠ 0 then
    .twoD (reshapeOrd result (dims.getD 0 0) (dims.getD 1 0))
  else .oneD result

/-- Strictly-ascending check for one row (adjacent comparison). -/
def ascB : List Int → Bool
  | [] => true
  | [_] => true
  | a :: b :: t => decide (a < b) && ascB (b :: t)

/-- Stepwise legality of a sequence of choices from state `(flat, usage)`:
every element is offered by the candidate filter of `solve` and accepted by
`extraRules` at its position.  This is exactly the set of paths of the
backtracking search tree. -/
def chainOKB (bank : Bank) (rowSize : Nat) (rules : Option OrdRule) :
    List Int → (Int → Nat) → List Int → Bool
  | _, _, [] => true
  | flat, usage, num :: rest =>
    (sortedNumbers bank).contains num
      && underLimit bank usage num
      && gtMin flat rowSize num
      && passR rules num flat rowSize
      && chainOKB bank rowSize rules (flat ++ [num]) (bump usage num) rest

/-- Declarative notion of a full-length solution for the ordered solver, in
the claim's words: full length, drawn from the bank keys, within every bank
limit, strictly ascending inside every row, and accepted by the predicate at
every prefix. -/
def isSolutionChk (bank : Bank) (dims : List Nat) (rules : Option OrdRule)
    (sol : List Int) : Bool :=
  decide (sol.length = totalOf dims)
    && sol.all (fun x => (bankKeys bank).contains x)
    && sol.all (fun x => decide (sol.count x ≤ (bankLimit bank x).getD 0))
    && (List.range sol.length).all (fun i =>
        decide (i % rowSizeOf dims = 0) || decide (sol.getD (i - 1) 0 < sol.getD i 0))
    && (List.range sol.length).all (fun i =>
        passR rules (sol.getD i 0) (sol.take i) (rowSizeOf dims))

/-! #### Shuffle lemmas: `shuffleArray` permutes its input -/

theorem perm_cons_set (t : List Int) (m : Nat) (a : Int) (hm : m < t.length) :
    List.Perm (t.getD m 0 :: t.set m a) (a :: t) := by
  induction t generalizing m with
  | nil => simp at hm
  | cons b t ih =>
    cases m with
    | zero =>
      simp only [List.getD_cons_zero, List.set_cons_zero]
      exact List.Perm.swap a b t
    | succ m =>
      have hm' : m < t.length := by simpa using hm
      simp only [List.getD_cons_succ, List.set_cons_succ]
      calc
        List.Perm (t.getD m 0 :: b :: t.set m a) (b :: t.getD m 0 :: t.set m a) :=
          List.Perm.swap b (t.getD m 0) _
        List.Perm _ (b :: a :: t) := List.Perm.cons b (ih m hm')
        List.Perm _ (a :: b :: t) := List.Perm.swap a b t

theorem fySwap_perm (l : List Int) (i j : Nat) (hi : i < l.length) (hj : j < l.length) :
    List.Perm (fySwap l i j) l := by
  induction l generalizing i j with
  | nil => simp at hi
  | cons x t ih =>
    cases i with
    | zero =>
      cases j with
      | zero =>
        simp [fySwap]
      | succ j =>
        have hj' : j < t.length := by simpa using hj
        simp only [fySwap, List.getD_cons_succ, List.getD_cons_zero, List.set_cons_zero,
          List.set_cons_succ]
        exact perm_cons_set t j x hj'
    | succ i =>
      have hi' : i < t.length := by simpa using hi
      cases j with
      | zero =>
        simp only [fySwap, List.getD_cons_succ, List.getD_cons_zero, List.set_cons_succ,
          List.set_cons_zero]
        exact perm_cons_set t i x hi'
      | succ j =>
        have hj' : j < t.length := by simpa using hj
        simp only [fySwap, List.getD_cons_succ, List.set_cons_succ]
        exact List.Perm.cons x (ih i j hi' hj')

theorem fyAux_perm (f : Nat → Nat) (i : Nat) (l : List Int) (hi : i < l.length) :
    List.Perm (fyAux f i l) l := by
  induction i generalizing l with
  | zero => simp [fyAux]
  | succ i ih =>
    rw [fyAux]
    have hj : (f (i + 1) % (i + 2)) < l.length := by
      have := Nat.mod_lt (f (i + 1)) (show 0 < i + 2 by omega)
      omega
    have hswap := fySwap_perm l (i + 1) (f (i + 1) % (i + 2)) hi hj
    have hlen : (fySwap l (i + 1) (f (i + 1) % (i + 2))).length = l.length :=
      hswap.length_eq
    have hi' : i < (fySwap l (i + 1) (f (i + 1) % (i + 2))).length := by omega
    exact (ih _ hi').trans hswap

theorem shuffleArray_perm (f : Nat → Nat) (l : List Int) :
    List.Perm (shuffleArray f l) l := by
  cases l with
  | nil => simp [shuffleArray, fyAux]
  | cons x t =>
    apply fyAux_perm
    simp

theorem mem_shuffleArray (f : Nat → Nat) (l : List Int) (x : Int) :
    x ∈ shuffleArray f l ↔ x ∈ l :=
  (shuffleArray_perm f l).mem_iff

/-! #### Path lemmas for the backtracking search -/

theorem tryList_eq_some (step : Int → Option (List Int)) (pass : Int → Bool)
    (lst : List Int) (r : List Int) (h : tryList step pass lst = some r) :
    ∃ num ∈ lst, pass num = true ∧ step num = some r := by
  induction lst with
  | nil => simp [tryList] at h
  | cons num rest ih =>
    rw [tryList] at h
    by_cases hp : pass num
    · rw [if_pos hp] at h
      cases hs : step num with
      | some r' =>
        rw [hs] at h
        simp at h
        refine ⟨num, by simp, hp, ?_⟩
        rw [hs, h]
      | none =>
        rw [hs] at h
        obtain ⟨n, hn, hpn, hsn⟩ := ih h
        exact ⟨n, by simp [hn], hpn, hsn⟩
    · rw [if_neg hp] at h
      obtain ⟨n, hn, hpn, hsn⟩ := ih h
      exact ⟨n, by simp [hn], hpn, hsn⟩

theorem tryList_isSome (step : Int → Option (List Int)) (pass : Int → Bool)
    (lst : List Int) (num : Int) (hmem : num ∈ lst) (hp : pass num = true)
    (hs : (step num).isSome) : (tryList step pass lst).isSome := by
  induction lst with
  | nil => simp at hmem
  | cons hd rest ih =>
    rw [tryList]
    by_cases hph : pass hd
    · rw [if_pos hph]
      cases hsh : step hd with
      | some r => simp
      | none =>
        rcases List.mem_cons.mp hmem with he | hm
        · subst he
          rw [hsh] at hs
          simp at hs
        · exact ih hm
    · rw [if_neg hph]
      rcases List.mem_cons.mp hmem with he | hm
      · subst he
        exact absurd hp hph
      · exact ih hm

theorem count_append_singleton (flat : List Int) (num k : Int) :
    List.count k (flat ++ [num]) = List.count k flat + (if k = num then 1 else 0) := by
  by_cases h : k = num
  · subst h
    simp [List.count_append]
  · have hz : List.count k [num] = 0 := by
      simp [List.count_eq_zero, h]
    simp [List.count_append, hz, h]

theorem bump_count (flat : List Int) (num : Int) :
    bump (fun k => List.count k flat) num = fun k => List.count k (flat ++ [num]) := by
  funext k
  rw [count_append_singleton]
  by_cases h : k = num <;> simp [bump, h]

theorem getD_append_cons (flat : List Int) (num : Int) (rest : List Int) :
    (flat ++ num :: rest).getD flat.length 0 = num := by
  rw [List.getD_eq_getElem?_getD]
  rw [List.getElem?_append_right (by omega)]
  simp

theorem getD_append_left (flat r : List Int) (i : Nat) (h : i < flat.length) :
    (flat ++ r).getD i 0 = flat.getD i 0 := by
  rw [List.getD_eq_getElem?_getD, List.getD_eq_getElem?_getD]
  rw [List.getElem?_append_left h]

theorem getLast?_eq_getD (flat : List Int) (h : flat ≠ []) :
    flat.getLast? = some (flat.getD (flat.length - 1) 0) := by
  rw [List.getLast?_eq_getElem?]
  rw [List.getD_eq_getElem?_getD]
  have hl : 0 < flat.length := List.length_pos.mpr h
  have hlt : flat.length - 1 < flat.length := by omega
  rw [List.getElem?_eq_getElem hlt]
  rfl

/-! #### Soundness: whatever `solve` returns is a legal full-length path -/

theorem solveAux_sound (bank : Bank) (rowSize total : Nat) (rules : Option OrdRule)
    (o : List Int → Nat → Nat) (fuel : Nat) (flat : List Int) (usage : Int → Nat)
    (r : List Int) (h : solveAux bank rowSize total rules o fuel flat usage = some r) :
    r.length = total
      ∧ ∃ ext, r = flat ++ ext ∧ chainOKB bank rowSize rules flat usage ext = true := by
  induction fuel generalizing flat usage r with
  | zero =>
    rw [solveAux] at h
    by_cases hl : flat.length = total
    · rw [if_pos hl] at h
      have hr : flat = r := Option.some.inj h
      subst hr
      exact ⟨hl, [], by simp, by rw [chainOKB]⟩
    · rw [if_neg hl] at h
      cases h
  | succ fuel ih =>
    rw [solveAux] at h
    by_cases hl : flat.length = total
    · rw [if_pos hl] at h
      have hr : flat = r := Option.some.inj h
      subst hr
      exact ⟨hl, [], by simp, by rw [chainOKB]⟩
    · rw [if_neg hl] at h
      obtain ⟨num, hmem, hpass, hstep⟩ := tryList_eq_some _ _ _ _ h
      obtain ⟨hrl, ext', hext, hchain⟩ := ih _ _ _ hstep
      have hcand : num ∈ candidatesIn bank rowSize flat usage :=
        (mem_shuffleArray _ _ _).mp hmem
      have hfil := List.mem_filter.mp hcand
      have hand := hfil.2
      simp only [Bool.and_eq_true] at hand
      obtain ⟨hul, hgt⟩ := hand
      refine ⟨hrl, num :: ext', by simp [hext], ?_⟩
      rw [chainOKB]
      simp [hfil.1, hul, hgt, hpass, hchain]

/-- Elements of a legal path all come from `sortedNumbers`. -/
theorem chain_mem_sorted (bank : Bank) (rowSize : Nat) (rules : Option OrdRule)
    (ext : List Int) (flat : List Int) (usage : Int → Nat)
    (h : chainOKB bank rowSize rules flat usage ext = true) :
    ∀ x ∈ ext, x ∈ sortedNumbers bank := by
  induction ext generalizing flat usage with
  | nil => simp
  | cons num rest ih =>
    rw [chainOKB] at h
    simp only [Bool.and_eq_true] at h
    intro x hx
    rcases List.mem_cons.mp hx with he | hm
    · subst he
      simpa using h.1.1.1.1
    · exact ih _ _ h.2 x hm

/-- Along a legal path whose usage map counts the prefix, every bank limit
that held for the prefix still holds for the whole sequence. -/
theorem chain_counts (bank : Bank) (rowSize : Nat) (rules : Option OrdRule)
    (ext : List Int) (flat : List Int)
    (h : chainOKB bank rowSize rules flat (fun k => List.count k flat) ext = true)
    (k : Int) (hk : List.count k flat ≤ (bankLimit bank k).getD 0) :
    List.count k (flat ++ ext) ≤ (bankLimit bank k).getD 0 := by
  induction ext generalizing flat with
  | nil => simpa using hk
  | cons num rest ih =>
    rw [chainOKB] at h
    simp only [Bool.and_eq_true] at h
    have hul := h.1.1.1.2
    have htail := h.2
    rw [bump_count] at htail
    have hstep : List.count k (flat ++ [num]) ≤ (bankLimit bank k).getD 0 := by
      by_cases hkn : k = num
      · subst hkn
        unfold underLimit at hul
        cases hlim : bankLimit bank k with
        | none => rw [hlim] at hul; cases hul
        | some m =>
          rw [hlim] at hul
          have : List.count k flat < m := by simpa using hul
          rw [count_append_singleton]
          simp [hlim]
          omega
      · rw [count_append_singleton]
        simp [hkn]
        exact hk
    have := ih (flat ++ [num]) htail hstep
    simpa [List.append_assoc] using this

/-- Along a legal path, every position that is not at the start of a row is
strictly greater than its predecessor. -/
theorem chain_asc (bank : Bank) (rowSize : Nat) (rules : Option OrdRule)
    (ext : List Int) (flat : List Int) (usage : Int → Nat)
    (h : chainOKB bank rowSize rules flat usage ext = true)
    (i : Nat) (hge : flat.length ≤ i) (hlt : i < (flat ++ ext).length)
    (hmod : ¬ (i % rowSize = 0)) :
    (flat ++ ext).getD (i - 1) 0 < (flat ++ ext).getD i 0 := by
  induction ext generalizing flat usage with
  | nil =>
    simp only [List.append_nil] at hlt
    omega
  | cons num rest ih =>
    rw [chainOKB] at h
    simp only [Bool.and_eq_true] at h
    have hgt := h.1.1.2
    have htail := h.2
    by_cases hi : i = flat.length
    · subst hi
      have hfne : flat ≠ [] := by
        intro hc
        subst hc
        simp at hmod
      unfold gtMin at hgt
      rw [if_neg (by simpa using hmod)] at hgt
      rw [getLast?_eq_getD flat hfne] at hgt
      have hprev : (flat ++ num :: rest).getD (flat.length - 1) 0
          = flat.getD (flat.length - 1) 0 := by
        apply getD_append_left
        have : 0 < flat.length := List.length_pos.mpr hfne
        omega
      rw [hprev, getD_append_cons]
      simpa using hgt
    · have hgi : (flat ++ [num]).length ≤ i := by
        simp only [List.length_append, List.length_singleton]
        omega
      have := ih (flat ++ [num]) (bump usage num) htail hgi
        (by simpa [List.append_assoc] using hlt)
      simpa [List.append_assoc] using this

/-! #### Completeness: the search is exhaustive, shuffling never hides paths -/

theorem solveAux_complete (bank : Bank) (rowSize total : Nat) (rules : Option OrdRule)
    (o : List Int → Nat → Nat) (ext : List Int) (flat : List Int) (usage : Int → Nat)
    (fuel : Nat) (hchain : chainOKB bank rowSize rules flat usage ext = true)
    (hlen : flat.length + ext.length = total) (hfuel : ext.length ≤ fuel) :
    (solveAux bank rowSize total rules o fuel flat usage).isSome := by
  induction ext generalizing flat usage fuel with
  | nil =>
    have hl : flat.length = total := by simpa using hlen
    cases fuel with
    | zero => rw [solveAux, if_pos hl]; rfl
    | succ fuel => rw [solveAux, if_pos hl]; rfl
  | cons num rest ih =>
    have hl : ¬ (flat.length = total) := by
      simp only [List.length_cons] at hlen
      omega
    cases fuel with
    | zero => simp at hfuel
    | succ fuel =>
      rw [solveAux, if_neg hl]
      rw [chainOKB] at hchain
      simp only [Bool.and_eq_true] at hchain
      obtain ⟨⟨⟨⟨hcont, hul⟩, hgt⟩, hpass⟩, htail⟩ := hchain
      apply tryList_isSome _ _ _ num
      · rw [mem_shuffleArray]
        apply List.mem_filter.mpr
        refine ⟨by simpa using hcont, ?_⟩
        simp [hul, hgt]
      · exact hpass
      · apply ih (flat ++ [num]) (bump usage num) fuel htail
        · simp only [List.length_append, List.length_singleton, List.length_cons,
            List.length_nil] at hlen ⊢
          omega
        · simp only [List.length_cons] at hfuel
          omega

/-! #### Row extraction and ascending-row helpers -/

theorem count_cons_eq (k x : Int) (t : List Int) :
    List.count k (x :: t) = List.count k t + (if k = x then 1 else 0) := by
  rw [List.count_cons]
  congr 1
  by_cases h : k = x
  · simp [h]
  · have h' : ¬ (x = k) := fun hc => h hc.symm
    simp [h, h']

theorem ascB_of_adjacent (l : List Int)
    (hadj : ∀ c, c + 1 < l.length → l.getD c 0 < l.getD (c + 1) 0) : ascB l = true := by
  induction l with
  | nil => rfl
  | cons a t ih =>
    cases t with
    | nil => rfl
    | cons b t2 =>
      have h0 : a < b := by
        have := hadj 0 (by simp)
        simpa using this
      have htail : ascB (b :: t2) = true := by
        apply ih
        intro c hc
        have := hadj (c + 1) (by simpa using Nat.succ_lt_succ hc)
        simpa [List.getD_cons_succ] using this
      rw [ascB]
      simp [h0, htail]

theorem slice_getD (l : List Int) (a b c : Nat) (h : c < ((l.drop a).take b).length) :
    ((l.drop a).take b).getD c 0 = l.getD (a + c) 0 := by
  simp only [List.length_take, List.length_drop] at h
  have hcb : c < b := by omega
  have hcl : a + c < l.length := by omega
  rw [List.getD_eq_getElem?_getD, List.getD_eq_getElem?_getD]
  rw [List.getElem?_take, if_pos hcb, List.getElem?_drop]

theorem slice_ascB (r : List Int) (cols j : Nat)
    (hadj : ∀ i, i < r.length → ¬ (i % cols = 0) → r.getD (i - 1) 0 < r.getD i 0) :
    ascB ((r.drop (j * cols)).take cols) = true := by
  apply ascB_of_adjacent
  intro c hc
  have hlen : c + 1 < ((r.drop (j * cols)).take cols).length := hc
  simp only [List.length_take, List.length_drop] at hlen
  have hcb : c + 1 < cols := by omega
  have hil : j * cols + (c + 1) < r.length := by omega
  have hmod : ¬ ((j * cols + (c + 1)) % cols = 0) := by
    have h1 : (j * cols + (c + 1)) % cols = (cols * j + (c + 1)) % cols := by
      rw [Nat.mul_comm]
    rw [h1, Nat.mul_add_mod, Nat.mod_eq_of_lt hcb]
    omega
  have := hadj (j * cols + (c + 1)) hil hmod
  have e1 : ((r.drop (j * cols)).take cols).getD c 0 = r.getD (j * cols + c) 0 :=
    slice_getD r (j * cols) cols c (by simp only [List.length_take, List.length_drop]; omega)
  have e2 : ((r.drop (j * cols)).take cols).getD (c + 1) 0 = r.getD (j * cols + (c + 1)) 0 :=
    slice_getD r (j * cols) cols (c + 1) (by simp only [List.length_take, List.length_drop]; omega)
  rw [e1, e2]
  have e3 : j * cols + (c + 1) - 1 = j * cols + c := by omega
  rw [e3] at this
  exact this

/-- Restriction of `chain_asc` to paths from the root. -/
theorem chain_asc_nil (bank : Bank) (rowSize : Nat) (rules : Option OrdRule) (r : List Int)
    (h : chainOKB bank rowSize rules [] (fun _ => 0) r = true) :
    ∀ i, i < r.length → ¬ (i % rowSize = 0) → r.getD (i - 1) 0 < r.getD i 0 := by
  intro i hi hm
  have := chain_asc bank rowSize rules r [] (fun _ => 0) h i (by simp)
    (by simpa using hi) hm
  simpa using this

/-- Restriction of `chain_counts` to paths from the root. -/
theorem chain_counts_nil (bank : Bank) (rowSize : Nat) (rules : Option OrdRule) (r : List Int)
    (h : chainOKB bank rowSize rules [] (fun _ => 0) r = true) (k : Int) :
    List.count k r ≤ (bankLimit bank k).getD 0 := by
  have hz : (fun k => List.count k ([] : List Int)) = (fun _ => 0 : Int → Nat) := by
    funext x
    simp
  have := chain_counts bank rowSize rules r [] (by rw [hz]; exact h) k (by simp)
  simpa using this

/-! #### Restart-loop lemmas -/

theorem attemptLoop_sound (bank : Bank) (dims : List Nat) (rules : Option OrdRule)
    (sh : Nat → List Int → Nat → Nat) (n a : Nat) (r : List Int)
    (h : attemptLoop bank dims rules sh n a = some r) :
    r.length = totalOf dims
      ∧ chainOKB bank (rowSizeOf dims) rules [] (fun _ => 0) r = true := by
  induction n generalizing a with
  | zero => simp [attemptLoop] at h
  | succ n ih =>
    rw [attemptLoop] at h
    cases hs : solveStart bank dims rules (sh a) with
    | some r' =>
      rw [hs] at h
      simp at h
      obtain ⟨hrl, ext, hext, hchain⟩ := solveAux_sound _ _ _ _ _ _ _ _ _ hs
      have he : ext = r' := by simpa using hext.symm
      subst he
      subst h
      exact ⟨hrl, hchain⟩
    | none =>
      rw [hs] at h
      exact ih _ h

theorem attemptLoop_isSome_of_first (bank : Bank) (dims : List Nat) (rules : Option OrdRule)
    (sh : Nat → List Int → Nat → Nat) (n a : Nat)
    (h : (solveStart bank dims rules (sh a)).isSome) :
    (attemptLoop bank dims rules sh (n + 1) a).isSome := by
  rw [attemptLoop]
  cases hs : solveStart bank dims rules (sh a) with
  | some r => simp
  | none =>
    rw [hs] at h
    simp at h

/-! #### Full-length reshaping for the ordered generator -/

theorem reshapeOrd_full (flat : List Int) (rows cols : Nat)
    (hlen : flat.length = rows * cols) (hpos : 0 < cols) :
    reshapeOrd flat rows cols
        = (List.range rows).map (fun j => (flat.drop (j * cols)).take cols)
      ∧ (reshapeOrd flat rows cols).flatten = flat := by
  have hfil : reshapeOrd flat rows cols = reshape flat rows cols := by
    unfold reshapeOrd
    apply List.filter_eq_self.mpr
    intro row hrow
    rw [reshape_eq_map_slices] at hrow
    obtain ⟨j, hj, hrw⟩ := List.mem_map.mp hrow
    rw [List.mem_range] at hj
    have hrl : row.length = cols := by
      rw [← hrw]
      simp only [List.length_take, List.length_drop]
      have : (j + 1) * cols ≤ rows * cols := Nat.mul_le_mul_right cols (by omega)
      have : j * cols + cols ≤ rows * cols := by
        calc j * cols + cols = (j + 1) * cols := by ring
        _ ≤ rows * cols := this
      omega
    simp [hrl]
    omega
  constructor
  · rw [hfil, reshape_eq_map_slices]
  · rw [hfil, reshape_flatten]
    apply List.take_of_length_le
    omega

/-- All rows of a generator result pass the strictly-ascending check. -/
def rowsSortedB (res : GenResult Int) : Bool := (rowsOf res).all ascB

/-- CLAIM C2: every row of the matrix returned by `orderedArrayWithBankNums`
is strictly increasing left to right; for 1-D dims the whole returned
sequence is one row, and it is strictly increasing.  This holds for every
bank, every dims, every predicate and every sequence of random draws. -/
theorem claim2_ordered_rows_ascending (bank : Bank) (dims : List Nat)
    (rules : Option OrdRule) (sh : Nat → List Int → Nat → Nat) :
    rowsSortedB (orderedArrayWithBankNums bank dims rules sh) = true := by
  cases hal : attemptLoop bank dims rules sh 50 0 with
  | none =>
    simp only [orderedArrayWithBankNums, hal, Option.getD_none]
    rw [if_neg (by simp)]
    rfl
  | some r =>
    obtain ⟨hrl, hchain⟩ := attemptLoop_sound _ _ _ _ _ _ _ hal
    have hadj := chain_asc_nil _ _ _ _ hchain
    simp only [orderedArrayWithBankNums, hal, Option.getD_some]
    by_cases h2 : dims.length = 2 ∧ r.length ≠ 0
    · rw [if_pos h2]
      simp only [rowsSortedB, rowsOf]
      apply List.all_eq_true.mpr
      intro row hrow
      have hrow2 : row ∈ reshape r (dims.getD 0 0) (dims.getD 1 0) :=
        (List.mem_filter.mp hrow).1
      rw [reshape_eq_map_slices] at hrow2
      obtain ⟨j, hj, hrw⟩ := List.mem_map.mp hrow2
      rw [← hrw]
      apply slice_ascB
      intro i hi hm
      apply hadj i hi
      have hrs : rowSizeOf dims = dims.getD 1 0 := by
        simp [rowSizeOf, h2.1]
      rw [hrs]
      exact hm
    · rw [if_neg h2]
      simp only [rowsSortedB, rowsOf, List.all_cons, List.all_nil, Bool.and_true]
      apply ascB_of_adjacent
      intro c hc
      rcases not_and_or.mp h2 with hne | hzero
      · have hrs : rowSizeOf dims = totalOf dims := by
          simp [rowSizeOf, totalOf, hne]
        have hmod : ¬ ((c + 1) % rowSizeOf dims = 0) := by
          rw [hrs]
          have hlt : c + 1 < totalOf dims := by omega
          rw [Nat.mod_eq_of_lt hlt]
          omega
        have := hadj (c + 1) hc hmod
        simpa using this
      · have hr : r = [] := List.eq_nil_of_length_eq_zero (by omega)
        subst hr
        simp at hc

/-- CLAIM C8: if all 50 restart attempts fail, `orderedArrayWithBankNums`
returns the empty sequence (for 2-D requests the 2-D branch is skipped and
the same empty array is returned); in every case the flat content of the
result has length exactly `totalElements` or zero. -/
theorem claim8_failure_empty_or_full (bank : Bank) (dims : List Nat)
    (rules : Option OrdRule) (sh : Nat → List Int → Nat → Nat) :
    (attemptLoop bank dims rules sh 50 0 = none →
        orderedArrayWithBankNums bank dims rules sh = .oneD [])
      ∧ ((genValues (orderedArrayWithBankNums bank dims rules sh)).length = totalOf dims
          ∨ genValues (orderedArrayWithBankNums bank dims rules sh) = []) := by
  cases hal : attemptLoop bank dims rules sh 50 0 with
  | none =>
    simp only [orderedArrayWithBankNums, hal, Option.getD_none]
    rw [if_neg (by simp)]
    exact ⟨fun _ => rfl, Or.inr rfl⟩
  | some r =>
    obtain ⟨hrl, hchain⟩ := attemptLoop_sound _ _ _ _ _ _ _ hal
    simp only [orderedArrayWithBankNums, hal, Option.getD_some]
    constructor
    · intro hc
      exact Option.noConfusion hc
    · by_cases h2 : dims.length = 2 ∧ r.length ≠ 0
      · rw [if_pos h2]
        left
        simp only [genValues]
        have hrc : r.length = (dims.getD 0 0) * (dims.getD 1 0) := by
          rw [hrl]
          simp [totalOf, h2.1]
        have hcols : 0 < dims.getD 1 0 := by
          rcases Nat.eq_zero_or_pos (dims.getD 1 0) with hz | hp
          · rw [hz, Nat.mul_zero] at hrc
            exact absurd hrc h2.2
          · exact hp
        rw [(reshapeOrd_full r _ _ hrc hcols).2]
        exact hrl
      · rw [if_neg h2]
        left
        simpa [genValues] using hrl

/-- Witness for C8: with an empty bank all 50 attempts fail (there are no
candidates at all), and the returned result is the empty sequence. -/
theorem claim8_witness :
    orderedArrayWithBankNums [] [1] none (fun _ _ _ => 0) = .oneD [] :=
  (claim8_failure_empty_or_full [] [1] none (fun _ _ _ => 0)).1 (by decide)

/-! #### From a declarative solution to a search-tree path -/

theorem bankLimit_isSome_of_mem (bank : Bank) (k : Int) (h : k ∈ bankKeys bank) :
    ∃ m, bankLimit bank k = some m := by
  induction bank with
  | nil => simp [bankKeys] at h
  | cons p t ih =>
    obtain ⟨a, b⟩ := p
    by_cases hk : k = a
    · subst hk
      exact ⟨b, by simp [bankLimit, List.lookup]⟩
    · have hm : k ∈ bankKeys t := by
        simp only [bankKeys, List.map_cons, List.mem_cons] at h
        rcases h with he | hmm
        · exact absurd he hk
        · exact hmm
      obtain ⟨m, hm2⟩ := ih hm
      refine ⟨m, ?_⟩
      have hbeq : (k == a) = false := by
        simp [hk]
      simp only [bankLimit, List.lookup, hbeq]
      exact hm2

/-- Every declarative solution is a legal path of the search tree, from any
of its prefixes onward. -/
theorem bridge_chain (bank : Bank) (dims : List Nat) (rules : Option OrdRule) (sol : List Int)
    (hsol : isSolutionChk bank dims rules sol = true) :
    ∀ ext flat, flat ++ ext = sol →
      chainOKB bank (rowSizeOf dims) rules flat (fun k => List.count k flat) ext = true := by
  unfold isSolutionChk at hsol
  simp only [Bool.and_eq_true] at hsol
  obtain ⟨⟨⟨⟨_, hkeys⟩, hcnt⟩, hasc⟩, hpass⟩ := hsol
  rw [List.all_eq_true] at hkeys hcnt hasc hpass
  intro ext
  induction ext with
  | nil =>
    intro flat _
    rw [chainOKB]
  | cons num rest ih =>
    intro flat hflat
    have hmem : num ∈ sol := by
      rw [← hflat]
      simp
    have hmk : num ∈ bankKeys bank := by
      simpa using hkeys num hmem
    have hc1 : (sortedNumbers bank).contains num = true := by
      have hms : num ∈ sortedNumbers bank :=
        ((List.perm_insertionSort (· ≤ ·) (bankKeys bank)).mem_iff).mpr hmk
      simpa using hms
    have hc2 : underLimit bank (fun k => List.count k flat) num = true := by
      obtain ⟨m, hm⟩ := bankLimit_isSome_of_mem bank num hmk
      have hcount : List.count num sol ≤ (bankLimit bank num).getD 0 := by
        simpa using hcnt num hmem
      rw [hm, Option.getD_some] at hcount
      have hsplit : List.count num sol = List.count num flat + List.count num (num :: rest) := by
        rw [← hflat, List.count_append]
      have hone : 1 ≤ List.count num (num :: rest) := by
        rw [count_cons_eq]
        simp
      unfold underLimit
      rw [hm]
      simp only [decide_eq_true_eq]
      omega
    have hc3 : gtMin flat (rowSizeOf dims) num = true := by
      unfold gtMin
      by_cases hmod : flat.length % rowSizeOf dims = 0
      · rw [if_pos hmod]
      · rw [if_neg hmod]
        have hfne : flat ≠ [] := by
          intro hc
          subst hc
          simp at hmod
        have hi : flat.length < sol.length := by
          rw [← hflat]
          simp
        have hor := hasc flat.length (List.mem_range.mpr hi)
        simp only [Bool.or_eq_true, decide_eq_true_eq] at hor
        rcases hor with hmm | hlt
        · exact absurd hmm hmod
        · rw [getLast?_eq_getD flat hfne]
          have hgd1 : sol.getD flat.length 0 = num := by
            rw [← hflat]
            exact getD_append_cons flat num rest
          have hgd2 : sol.getD (flat.length - 1) 0 = flat.getD (flat.length - 1) 0 := by
            rw [← hflat]
            apply getD_append_left
            have : 0 < flat.length := List.length_pos.mpr hfne
            omega
          rw [hgd1, hgd2] at hlt
          simpa using hlt
    have hc4 : passR rules num flat (rowSizeOf dims) = true := by
      have hi : flat.length < sol.length := by
        rw [← hflat]
        simp
      have hp := hpass flat.length (List.mem_range.mpr hi)
      have htake : sol.take flat.length = flat := by
        rw [← hflat]
        exact List.take_left flat (num :: rest)
      have hgd : sol.getD flat.length 0 = num := by
        rw [← hflat]
        exact getD_append_cons flat num rest
      rw [htake, hgd] at hp
      exact hp
    have hc5 : chainOKB bank (rowSizeOf dims) rules (flat ++ [num])
        (fun k => List.count k (flat ++ [num])) rest = true := by
      apply ih (flat ++ [num])
      rw [List.append_assoc]
      simpa using hflat
    rw [chainOKB]
    simp only [Bool.and_eq_true]
    refine ⟨⟨⟨⟨hc1, hc2⟩, hc3⟩, hc4⟩, ?_⟩
    rw [bump_count]
    exact hc5

/-- Completeness of one solve attempt: whenever a declarative solution
exists, the attempt succeeds, whatever the random branch order. -/
theorem solution_implies_attempt_isSome (bank : Bank) (dims : List Nat)
    (rules : Option OrdRule) (o : List Int → Nat → Nat) (sol : List Int)
    (hsol : isSolutionChk bank dims rules sol = true) :
    (solveStart bank dims rules o).isSome := by
  have hchain := bridge_chain bank dims rules sol hsol sol [] (by simp)
  have hz : (fun k => List.count k ([] : List Int)) = (fun _ => 0 : Int → Nat) := by
    funext x
    simp
  rw [hz] at hchain
  have hlen : sol.length = totalOf dims := by
    unfold isSolutionChk at hsol
    simp only [Bool.and_eq_true] at hsol
    exact of_decide_eq_true hsol.1.1.1.1
  unfold solveStart
  apply solveAux_complete bank (rowSizeOf dims) (totalOf dims) rules o sol [] (fun _ => 0)
  · exact hchain
  · simpa using hlen
  · omega

/-- CLAIM C3 (counterexample, proving the negation): there are NO bank, dims,
predicate and random draws under which a single full solve attempt returns no
solution while a full-length solution (within bank limits, per-row ascending,
predicate-accepted) exists.  The backtracking loop iterates over all shuffled
candidates, so the search is exhaustive and the randomized branch order can
never hide an existing solution. -/
theorem claim3_counterexample :
    ¬ ∃ (bank : Bank) (dims : List Nat) (rules : Option OrdRule)
        (o : List Int → Nat → Nat) (sol : List Int),
        isSolutionChk bank dims rules sol = true
          ∧ solveStart bank dims rules o = none := by
  rintro ⟨bank, dims, rules, o, sol, hsol, hnone⟩
  have h := solution_implies_attempt_isSome bank dims rules o sol hsol
  rw [hnone] at h
  simp at h

/-- CLAIM C3 (amended): a single full solve attempt (depth-first search from
the empty sequence) is exhaustive: whenever a full-length solution satisfying
the bank limits, the per-row ordering and the predicate exists, the attempt
returns a solution under every sequence of random draws; it returns no
solution only when none exists.  The code still restarts up to 50 times, but
the restarts can only re-randomize which solution is found, never turn
failure into success. -/
theorem claim3_amended_search_exhaustive (bank : Bank) (dims : List Nat)
    (rules : Option OrdRule) (o : List Int → Nat → Nat) (sol : List Int)
    (hsol : isSolutionChk bank dims rules sol = true) :
    (solveStart bank dims rules o).isSome :=
  solution_implies_attempt_isSome bank dims rules o sol hsol

/-- Witness for the amended C3 at a concrete input: the bank `{1: 1}` with
dims `[1]` admits the solution `[1]`, and the solve attempt succeeds. -/
theorem claim3_amended_witness :
    isSolutionChk [(1, 1)] [1] none [1] = true
      ∧ (solveStart [(1, 1)] [1] none (fun _ _ => 0)).isSome :=
  ⟨by decide,
    claim3_amended_search_exhaustive [(1, 1)] [1] none (fun _ _ => 0) [1] (by decide)⟩

/-! #### Counting lemmas for the concrete C6 scenario -/

theorem sum_map_add (f g : Int → Nat) (ks : List Int) :
    (ks.map (fun k => f k + g k)).sum = (ks.map f).sum + (ks.map g).sum := by
  induction ks with
  | nil => simp
  | cons k t ih =>
    simp only [List.map_cons, List.sum_cons, ih]
    omega

theorem sum_map_indicator_zero (t : List Int) (x : Int) (hx : x ∉ t) :
    (t.map (fun k => if k = x then 1 else 0)).sum = 0 := by
  apply List.sum_eq_zero
  intro y hy
  obtain ⟨k, hk, hkeq⟩ := List.mem_map.mp hy
  by_cases h : k = x
  · subst h
    exact absurd hk hx
  · rw [← hkeq]
    simp [h]

theorem sum_map_indicator_one (ks : List Int) (x : Int) (hnd : ks.Nodup) (hx : x ∈ ks) :
    (ks.map (fun k => if k = x then 1 else 0)).sum = 1 := by
  induction ks with
  | nil => simp at hx
  | cons k t ih =>
    rw [List.nodup_cons] at hnd
    simp only [List.map_cons, List.sum_cons]
    by_cases h : k = x
    · subst h
      rw [if_pos rfl, sum_map_indicator_zero t k hnd.1]
    · rw [if_neg h]
      have hxt : x ∈ t := by
        rcases List.mem_cons.mp hx with he | hm
        · exact absurd he.symm h
        · exact hm
      rw [ih hnd.2 hxt]

theorem sum_counts_eq_length (ks : List Int) (hnd : ks.Nodup) (l : List Int)
    (hall : ∀ x ∈ l, x ∈ ks) :
    (ks.map (fun k => List.count k l)).sum = l.length := by
  induction l with
  | nil =>
    have hz : ks.map (fun k => List.count k ([] : List Int)) = ks.map (fun _ => 0) := by
      apply List.map_congr_left
      intro k _
      simp
    rw [hz]
    simp
  | cons x t ih =>
    have hx : x ∈ ks := hall x (by simp)
    have ht : ∀ y ∈ t, y ∈ ks := fun y hy => hall y (by simp [hy])
    have hmap : ks.map (fun k => List.count k (x :: t))
        = ks.map (fun k => List.count k t + (if k = x then 1 else 0)) := by
      apply List.map_congr_left
      intro k _
      exact count_cons_eq k x t
    rw [hmap, sum_map_add, ih ht, sum_map_indicator_one ks x hnd hx]
    simp

/-! #### The concrete C6 scenario -/

/-- The bank `{1:3, 2:3, 3:3, 4:3, 5:3, 6:3}`. -/
def bank6 : Bank := [(1, 3), (2, 3), (3, 3), (4, 3), (5, 3), (6, 3)]

/-- The C6 output property: a 6-row matrix of 3-element strictly ascending
rows in which every value from 1 to 6 appears exactly 3 times in total. -/
def checkC6 : GenResult Int → Bool
  | .twoD m => decide (m.length = 6)
      && m.all (fun row => decide (row.length = 3) && ascB row)
      && ([1, 2, 3, 4, 5, 6] : List Int).all (fun k => decide (List.count k m.flatten = 3))
  | .oneD _ => false

/-- CLAIM C6: for the bank `{1:3,...,6:3}`, dims `[6,3]` and no extra
predicate, `orderedArrayWithBankNums` always (for every sequence of random
draws) returns a 6 by 3 matrix whose rows are strictly increasing and in
which every value from 1 to 6 appears exactly 3 times. -/
theorem claim6_concrete_scenario (sh : Nat → List Int → Nat → Nat) :
    checkC6 (orderedArrayWithBankNums bank6 [6, 3] none sh) = true := by
  have hsol : isSolutionChk bank6 [6, 3] none
      [1, 2, 3, 1, 2, 3, 1, 2, 3, 4, 5, 6, 4, 5, 6, 4, 5, 6] = true := by decide
  have hfirst := solution_implies_attempt_isSome bank6 [6, 3] none (sh 0) _ hsol
  have hloop := attemptLoop_isSome_of_first bank6 [6, 3] none sh 49 0 hfirst
  cases hal : attemptLoop bank6 [6, 3] none sh 50 0 with
  | none =>
    rw [hal] at hloop
    simp at hloop
  | some r =>
    obtain ⟨hrl, hchain⟩ := attemptLoop_sound _ _ _ _ _ _ _ hal
    have htot : totalOf [6, 3] = 18 := by decide
    have hrow3 : rowSizeOf [6, 3] = 3 := by decide
    rw [htot] at hrl
    rw [hrow3] at hchain
    have hmemk : ∀ x ∈ r, x ∈ ([1, 2, 3, 4, 5, 6] : List Int) := by
      intro x hx
      have hs := chain_mem_sorted _ _ _ _ _ _ hchain x hx
      have : x ∈ bankKeys bank6 :=
        ((List.perm_insertionSort (· ≤ ·) (bankKeys bank6)).mem_iff).mp hs
      simpa [bankKeys, bank6] using this
    have hcounts := chain_counts_nil _ _ _ _ hchain
    have hb1 : (bankLimit bank6 1).getD 0 = 3 := by decide
    have hb2 : (bankLimit bank6 2).getD 0 = 3 := by decide
    have hb3 : (bankLimit bank6 3).getD 0 = 3 := by decide
    have hb4 : (bankLimit bank6 4).getD 0 = 3 := by decide
    have hb5 : (bankLimit bank6 5).getD 0 = 3 := by decide
    have hb6 : (bankLimit bank6 6).getD 0 = 3 := by decide
    have hle1 := hb1 ▸ hcounts 1
    have hle2 := hb2 ▸ hcounts 2
    have hle3 := hb3 ▸ hcounts 3
    have hle4 := hb4 ▸ hcounts 4
    have hle5 := hb5 ▸ hcounts 5
    have hle6 := hb6 ▸ hcounts 6
    have hsum := sum_counts_eq_length [1, 2, 3, 4, 5, 6] (by decide) r hmemk
    simp only [List.map_cons, List.map_nil, List.sum_cons, List.sum_nil] at hsum
    rw [hrl] at hsum
    have hc1 : List.count 1 r = 3 := by omega
    have hc2 : List.count 2 r = 3 := by omega
    have hc3 : List.count 3 r = 3 := by omega
    have hc4 : List.count 4 r = 3 := by omega
    have hc5 : List.count 5 r = 3 := by omega
    have hc6 : List.count 6 r = 3 := by omega
    simp only [orderedArrayWithBankNums, hal, Option.getD_some]
    rw [if_pos ⟨rfl, by omega⟩]
    show checkC6 (.twoD (reshapeOrd r 6 3)) = true
    obtain ⟨hmap, hflat⟩ := reshapeOrd_full r 6 3 (by omega) (by omega)
    rw [checkC6]
    have hml : (reshapeOrd r 6 3).length = 6 := by
      rw [hmap]
      simp
    have hrowsOK : (reshapeOrd r 6 3).all
        (fun row => decide (row.length = 3) && ascB row) = true := by
      apply List.all_eq_true.mpr
      intro row hrow
      rw [hmap] at hrow
      obtain ⟨j, hj, hrw⟩ := List.mem_map.mp hrow
      rw [List.mem_range] at hj
      have hrlen : row.length = 3 := by
        rw [← hrw]
        simp only [List.length_take, List.length_drop]
        omega
      have hasc : ascB row = true := by
        rw [← hrw]
        exact slice_ascB r 3 j (chain_asc_nil _ _ _ _ hchain)
      simp [hrlen, hasc]
    have hcnt : (([1, 2, 3, 4, 5, 6] : List Int)).all
        (fun k => decide (List.count k (reshapeOrd r 6 3).flatten = 3)) = true := by
      rw [hflat]
      simp only [List.all_cons, List.all_nil, Bool.and_true]
      simp [hc1, hc2, hc3, hc4, hc5, hc6]
    simp [hml, hrowsOK, hcnt]

end YAry
